import Mathlib

/-!
Verification development for the pindl Pinterest board downloader
(src/pindl.py).  Strings are modelled as lists of Unicode code points
(`List Nat`); byte strings as lists of byte values.  The UTF-8 codec
models the encode/decode operations the Python code performs through
str.encode and bytes.decode.
-/

set_option autoImplicit false

namespace Pindl

/-! ### UTF-8 codec model -/

/-- UTF-8 encoding of a single code point, as performed by str.encode. -/
def utf8EncodeChar (c : Nat) : List Nat :=
  if c < 0x80 then [c]
  else if c < 0x800 then [0xC0 + c / 64, 0x80 + c % 64]
  else if c < 0x10000 then [0xE0 + c / 4096, 0x80 + c / 64 % 64, 0x80 + c % 64]
  else [0xF0 + c / 262144, 0x80 + c / 4096 % 64, 0x80 + c / 64 % 64, 0x80 + c % 64]

/-- UTF-8 encoding of a string (list of code points). -/
def utf8Encode (s : List Nat) : List Nat :=
  (s.map utf8EncodeChar).flatten

/-- Length in bytes of the UTF-8 encoding of a string, i.e. len(s.encode()). -/
def utf8Len (s : List Nat) : Nat :=
  (utf8Encode s).length

/-- A UTF-8 continuation byte. -/
def IsCont (b : Nat) : Prop := 0x80 ≤ b ∧ b < 0xC0

instance (b : Nat) : Decidable (IsCont b) := by unfold IsCont; infer_instance

/-- Fuelled worker for UTF-8 decoding with the ignore error handler.
Each step consumes at least one byte and one unit of fuel, so fuel equal
to the length of the byte list always suffices. -/
def utf8DecodeIgnoreAux : Nat → List Nat → List Nat
  | _, [] => []
  | 0, _ :: _ => []
  | fuel + 1, b0 :: rest =>
    if b0 < 0x80 then b0 :: utf8DecodeIgnoreAux fuel rest
    else if b0 < 0xC2 then utf8DecodeIgnoreAux fuel rest
    else if b0 < 0xE0 then
      match rest with
      | b1 :: rest1 =>
        if IsCont b1 then ((b0 - 0xC0) * 64 + (b1 - 0x80)) :: utf8DecodeIgnoreAux fuel rest1
        else utf8DecodeIgnoreAux fuel rest
      | [] => []
    else if b0 < 0xF0 then
      match rest with
      | b1 :: b2 :: rest2 =>
        if IsCont b1 ∧ IsCont b2 ∧ ¬(b0 = 0xE0 ∧ b1 < 0xA0) ∧ ¬(b0 = 0xED ∧ 0xA0 ≤ b1) then
          ((b0 - 0xE0) * 4096 + (b1 - 0x80) * 64 + (b2 - 0x80)) :: utf8DecodeIgnoreAux fuel rest2
        else utf8DecodeIgnoreAux fuel rest
      | _ => utf8DecodeIgnoreAux fuel rest
    else if b0 < 0xF5 then
      match rest with
      | b1 :: b2 :: b3 :: rest3 =>
        if IsCont b1 ∧ IsCont b2 ∧ IsCont b3 ∧
            ¬(b0 = 0xF0 ∧ b1 < 0x90) ∧ ¬(b0 = 0xF4 ∧ 0x90 ≤ b1) then
          ((b0 - 0xF0) * 262144 + (b1 - 0x80) * 4096 + (b2 - 0x80) * 64 + (b3 - 0x80)) ::
            utf8DecodeIgnoreAux fuel rest3
        else utf8DecodeIgnoreAux fuel rest
      | _ => utf8DecodeIgnoreAux fuel rest
    else utf8DecodeIgnoreAux fuel rest

/-- UTF-8 decoding with the ignore error handler, as performed by
bytes.decode(errors=\x27ignore\x27): well-formed sequences decode to their
code point, and bytes that do not begin a well-formed sequence are skipped. -/
def utf8DecodeIgnore (bs : List Nat) : List Nat :=
  utf8DecodeIgnoreAux bs.length bs

/-- A code point that a Python str can hold and encode: below 0x110000 and
not a surrogate. -/
def ValidChar (c : Nat) : Prop :=
  c < 0x110000 ∧ ¬(0xD800 ≤ c ∧ c ≤ 0xDFFF)

instance (c : Nat) : Decidable (ValidChar c) := by unfold ValidChar; infer_instance

/-! ### Python string primitives used by pindl -/

/-- The code point of the horizontal ellipsis character used by pindl. -/
def ellipsisChar : Nat := 8230

/-- _ELLIPSIS_BYTE_LEN = len(ellipsis.encode()). -/
def ellipsisByteLen : Nat := (utf8Encode [ellipsisChar]).length

/-- Python slice s[:i], which clamps and supports negative indices. -/
def pyTake (s : List Nat) (i : Int) : List Nat :=
  if 0 ≤ i then s.take i.toNat else s.take ((s.length : Int) + i).toNat

/-- limit_string from pindl.py: limit a string to the given length,
appending an ellipsis if needed. -/
def limit_string (s : List Nat) (length : Int) : List Nat :=
  if (s.length : Int) > length then pyTake s (length - 1) ++ [ellipsisChar] else s

/-- limit_string_bytes from pindl.py: limit a string to the given number
of bytes of its UTF-8 encoding, appending an ellipsis if needed. -/
def limit_string_bytes (s : List Nat) (byte_length : Nat) : List Nat :=
  if (utf8Encode s).length ≤ byte_length then s
  else if byte_length < ellipsisByteLen then []
  else if byte_length = ellipsisByteLen then [ellipsisChar]
  else utf8DecodeIgnore ((utf8Encode s).take (byte_length - ellipsisByteLen)) ++ [ellipsisChar]

/-- The character translation str.maketrans applied by universal_filename:
backslash and slash become a hyphen, a double quote becomes a single quote,
and the characters < > : | ? * are removed. -/
def translateChar (c : Nat) : Option Nat :=
  if c = 92 ∨ c = 47 then some 45
  else if c = 34 then some 39
  else if c = 60 ∨ c = 62 ∨ c = 58 ∨ c = 124 ∨ c = 63 ∨ c = 42 then none
  else some c

/-- Trailing-character test of rstrip(". "): a period or a space. -/
def isDotOrSpace (c : Nat) : Bool := c = 46 || c = 32

/-- universal_filename from pindl.py: translate unsafe characters and strip
trailing periods and spaces. -/
def universal_filename (s : List Nat) : List Nat :=
  (((s.filterMap translateChar).reverse.dropWhile isDotOrSpace)).reverse

/-- str.lower per character.  Python lowercasing can map one character to
several: the full case mapping of U+0130 LATIN CAPITAL LETTER I WITH DOT
ABOVE is U+0069 U+0307, which also grows from two UTF-8 bytes to three.
This model covers that expanding mapping and the ASCII range; other code
points are left unchanged (a fragment of the full Unicode table, enough to
exhibit that lowercasing after the byte truncation can exceed the byte
budget). -/
def pyLowerChar (c : Nat) : List Nat :=
  if c = 304 then [105, 775]
  else if 65 ≤ c ∧ c ≤ 90 then [c + 32] else [c]

/-- str.lower on a whole string. -/
def pyLowerStr (s : List Nat) : List Nat :=
  (s.map pyLowerChar).flatten

/-- Whitespace characters recognised by str.split (ASCII fragment). -/
def isSpaceChar (c : Nat) : Bool :=
  c = 32 || c = 9 || c = 10 || c = 13 || c = 11 || c = 12

/-- Accumulator-style worker for str.split(): collects maximal runs of
non-whitespace characters. -/
def splitWordsAux : List Nat → List Nat → List (List Nat)
  | [], acc => if acc = [] then [] else [acc.reverse]
  | c :: rest, acc =>
    if isSpaceChar c then
      if acc = [] then splitWordsAux rest [] else acc.reverse :: splitWordsAux rest []
    else splitWordsAux rest (c :: acc)

/-- str.split() with no argument: split on whitespace runs, dropping
empty strings. -/
def pySplit (s : List Nat) : List (List Nat) :=
  splitWordsAux s []

/-- str.join: concatenate the words with the separator between them. -/
def pyJoin (sep : List Nat) : List (List Nat) → List Nat
  | [] => []
  | [w] => w
  | w :: ws => w ++ sep ++ pyJoin sep ws

/-- Python str.rfind: the highest index at which the character occurs,
or -1 when it does not occur. -/
def pyRfind (s : List Nat) (c : Nat) : Int :=
  match s with
  | [] => -1
  | a :: rest =>
    let r := pyRfind rest c
    if 0 ≤ r then r + 1
    else if a = c then 0 else -1

/-- The stem part of os.path.splitext for a bare file name: cut at the last
period, provided it is preceded by at least one non-period character. -/
def splitext_stem (name : List Nat) : List Nat :=
  let sepIndex := pyRfind name 46
  if 0 < sepIndex ∧ (name.take sepIndex.toNat).any (fun ch => ch ≠ 46) then
    name.take sepIndex.toNat
  else name

/-- The extension part of os.path.splitext for a bare file name. -/
def splitext_ext (name : List Nat) : List Nat :=
  name.drop (splitext_stem name).length

/-- ASCII alphanumeric character (the fragment of str.isalnum the claims
quantify over). -/
def isAsciiAlnumChar (c : Nat) : Bool :=
  (48 ≤ c && c ≤ 57) || (65 ≤ c && c ≤ 90) || (97 ≤ c && c ≤ 122)

/-- str.isalnum on the ASCII fragment: nonempty and all alphanumeric. -/
def pyIsAlnum (s : List Nat) : Bool :=
  !s.isEmpty && s.all isAsciiAlnumChar

/-- str(n) for a natural number: its decimal digits.  Structured with fuel
so that it evaluates by kernel reduction; n + 1 units of fuel always
suffice since the value shrinks by a factor of ten each step. -/
def natDigitsAux : Nat → Nat → List Nat
  | 0, _ => []
  | fuel + 1, n => if n < 10 then [48 + n] else natDigitsAux fuel (n / 10) ++ [48 + n % 10]

/-- Decimal rendering of a natural number, as Python str(n). -/
def pyStrNat (n : Nat) : List Nat :=
  natDigitsAux (n + 1) n

/-! ### Pin file names (Filename Codec) -/

/-- _NOTE_LIMIT from pindl.py. -/
def noteLimit : Nat := 50

/-- A pin as the claims use it: the id and note fields of the API record. -/
structure Pin where
  id : List Nat
  note : List Nat
deriving DecidableEq

/-- lstrip(".."): drop leading periods. -/
def lstripDot (s : List Nat) : List Nat :=
  s.dropWhile (fun c => c = 46)

/-- create_pin_filename from pindl.py.  The byte budget
254 - len(id) - len(ext) is a natural number here; when the Python value
would be negative both versions produce an empty note, so the saturating
subtraction agrees with the source on every input. -/
def create_pin_filename (pin : Pin) (image_ext : List Nat) : List Nat :=
  let note0 := lstripDot pin.note
  if note0 = [] then pin.id ++ image_ext
  else
    let note1 := limit_string note0 (noteLimit : Int)
    let note2 := limit_string_bytes note1 (254 - pin.id.length - image_ext.length)
    let note3 := universal_filename note2
    let note4 := pyJoin [95] (pySplit (pyLowerStr note3))
    let note5 := if note4 ≠ [] then note4 ++ [95] else note4
    note5 ++ pin.id ++ image_ext

/-! ### Existing-pin scanner -/

/-- The per-file decoding done by get_existing_pins: the part of the stem
after the last underscore. -/
def scan_pin_id (file_name : List Nat) : List Nat :=
  let name := splitext_stem file_name
  name.drop (pyRfind name 95 + 1).toNat

/-- Insertion into the existing-pins dict: overwrite the entry for the key
if present, otherwise append it. -/
def dictInsert (pins : List (List Nat × List Nat)) (k v : List Nat) :
    List (List Nat × List Nat) :=
  if pins.any (fun p => p.1 = k) then
    pins.map (fun p => if p.1 = k then (k, v) else p)
  else pins ++ [(k, v)]

/-- Dict lookup by key equality. -/
def dictLookup : List (List Nat × List Nat) → List Nat → Option (List Nat)
  | [], _ => none
  | (k, v) :: rest, key => if k = key then some v else dictLookup rest key

/-- get_existing_pins from pindl.py over a directory listing: for each file
name, decode a pin id from the stem and keep it if alphanumeric; a later
file with the same id overwrites an earlier one. -/
def get_existing_pins (files : List (List Nat)) : List (List Nat × List Nat) :=
  files.foldl
    (fun pins file_name =>
      let pin_id := scan_pin_id file_name
      if pyIsAlnum pin_id then dictInsert pins pin_id file_name else pins)
    []

/-! ### Progress printer -/

/-- Number field width: len(str(num_pins)). -/
def num_width (num_pins : Nat) : Nat := (pyStrNat num_pins).length

/-- Width left for the note and the id after the counter field and the two
spaces; max(0, ..) is realised by the truncated subtraction. -/
def free_width (num_pins : Nat) : Nat :=
  79 - (num_width num_pins * 2 + 1) - 2

/-- Right-aligned formatting of a number into a field, as {:w} on an int. -/
def padLeft (w : Nat) (s : List Nat) : List Nat :=
  List.replicate (w - s.length) 32 ++ s

/-- Left-aligned formatting of a string into a field, as {:w} on a str. -/
def padRight (w : Nat) (s : List Nat) : List Nat :=
  s ++ List.replicate (w - s.length) 32

/-- One progress line printed by the printer made by create_progress_printer:
counter slash total, space, size-limited note in its field, space, pin id. -/
def progress_line (num_pins : Nat) (pin : Pin) (pin_num : Nat) : List Nat :=
  let id_len := pin.id.length
  let note_len := free_width num_pins - id_len
  let note := limit_string pin.note (note_len : Int)
  padLeft (num_width num_pins) (pyStrNat pin_num) ++ [47] ++ pyStrNat num_pins ++
    [32] ++ padRight note_len note ++ [32] ++ padRight id_len pin.id

/-! ### Checkpoint store and the download orchestrator -/

/-- The checkpoint persisted in the board sidecar json file. -/
structure Checkpoint where
  next_page_cursor : List Nat
  num_complete_pages : Nat
deriving DecidableEq

/-- One page yielded by iter_board_pages: the pins on the page and the
cursor to the next page (none on the last page). -/
structure Page where
  pins : List Pin
  cursor : Option (List Nat)
deriving DecidableEq

/-- The on-disk state of one board that download_board manipulates: the
checkpoint sidecar file (none when absent) and the listing of the board
directory. -/
structure BoardState where
  checkpoint : Option Checkpoint
  dir : List (List Nat)
deriving DecidableEq

/-- os.remove on the checkpoint file: removing an absent file raises
FileNotFoundError, modelled as an error value. -/
def os_remove (file : Option Checkpoint) : Except Unit (Option Checkpoint) :=
  match file with
  | some _ => Except.ok none
  | none => Except.error ()

/-- The try/except around os.remove in download_board: FileNotFoundError
is swallowed and the state is left as it was. -/
def remove_checkpoint_ignoring_missing (file : Option Checkpoint) : Option Checkpoint :=
  match os_remove file with
  | Except.ok f => f
  | Except.error _ => file

/-- The body of the per-pin reconciliation loop in download_board
(lines 307 to 326): a pin absent from the existing index is new; one that
is present is not downloaded again, and its file is renamed when the
recomputed name differs from the one on disk.  Returns the directory after
the step and whether the pin is new. -/
def reconcile_pin (existing : List (List Nat × List Nat)) (dir : List (List Nat))
    (pin : Pin) : List (List Nat) × Bool :=
  match dictLookup existing pin.id with
  | none => (dir, true)
  | some old_file_name =>
    let new_file_name := create_pin_filename pin (splitext_ext old_file_name)
    if new_file_name = old_file_name then (dir, false)
    else (dir.replace old_file_name new_file_name, false)

/-- The reconciliation loop over the pins of one page, in page order;
returns the directory after all renames and the list of new pins. -/
def reconcile_page (existing : List (List Nat × List Nat)) (dir : List (List Nat)) :
    List Pin → List (List Nat) × List Pin
  | [] => (dir, [])
  | pin :: rest =>
    let step := reconcile_pin existing dir pin
    let rec1 := reconcile_page existing step.1 rest
    (rec1.1, if step.2 then pin :: rec1.2 else rec1.2)

/-- The fan-out of download_pin over the new pins of a page.  dlOk tells
whether the download of a pin succeeds and dlExt gives the image extension
determined from its URL (corrected by sniffing); a successful task writes
the image file, a failed one is only counted.  Returns the directory with
the written files and the number of errors. -/
def download_new_pins (dlOk : Pin → Bool) (dlExt : Pin → List Nat)
    (dir : List (List Nat)) (new_pins : List Pin) : List (List Nat) × Nat :=
  (dir ++ (new_pins.filter dlOk).map (fun p => create_pin_filename p (dlExt p)),
   (new_pins.filter (fun p => !dlOk p)).length)

/-- The new pins of a page as computed by the reconciliation pass. -/
def page_new_pins (existing : List (List Nat × List Nat)) (st : BoardState)
    (page : Page) : List Pin :=
  (reconcile_page existing st.dir page.pins).2

/-- The per-page download error count of download_board. -/
def page_num_errors (dlOk : Pin → Bool) (existing : List (List Nat × List Nat))
    (st : BoardState) (page : Page) : Nat :=
  ((page_new_pins existing st page).filter (fun p => !dlOk p)).length

/-- One iteration of the page loop of download_board (lines 300 to 370):
reconcile, download the new pins, then either abort on errors without
touching the checkpoint, or advance the checkpoint (write it when there is
a next cursor, delete it on the last page).  page_num is the ordinal of
this page; the second component tells whether the loop continues. -/
def page_step (dlOk : Pin → Bool) (dlExt : Pin → List Nat)
    (existing : List (List Nat × List Nat)) (page : Page) (page_num : Nat)
    (st : BoardState) : BoardState × Bool :=
  let rec1 := reconcile_page existing st.dir page.pins
  let dl := download_new_pins dlOk dlExt rec1.1 rec1.2
  if rec1.2 ≠ [] ∧ 0 < dl.2 then
    ({ checkpoint := st.checkpoint, dir := dl.1 }, false)
  else
    match page.cursor with
    | some c =>
      ({ checkpoint := some { next_page_cursor := c, num_complete_pages := page_num },
         dir := dl.1 }, true)
    | none =>
      ({ checkpoint := remove_checkpoint_ignoring_missing st.checkpoint, dir := dl.1 }, true)

/-- The page loop of download_board over the pages yielded by
iter_board_pages from the resume cursor.  page_num carries the count of
pages already complete; the Bool result is true when every page was
processed and false when the run aborted on a page with errors. -/
def run_pages (dlOk : Pin → Bool) (dlExt : Pin → List Nat)
    (existing : List (List Nat × List Nat)) :
    List Page → Nat → BoardState → BoardState × Bool
  | [], _, st => (st, true)
  | page :: rest, page_num, st =>
    let step := page_step dlOk dlExt existing page (page_num + 1) st
    if step.2 then run_pages dlOk dlExt existing rest (page_num + 1) step.1
    else (step.1, false)

/-- download_board from the checkpoint load onwards: the starting page
count comes from the checkpoint (0 when absent) and the existing-pin index
is scanned once from the directory. -/
def download_board_run (dlOk : Pin → Bool) (dlExt : Pin → List Nat)
    (pages : List Page) (st : BoardState) : BoardState × Bool :=
  let page_num :=
    match st.checkpoint with
    | some cp => cp.num_complete_pages
    | none => 0
  run_pages dlOk dlExt (get_existing_pins st.dir) pages page_num st

/-! ### Board directory resolution -/

/-- The board metadata used for directory resolution: the canonical board
id and the path component of the canonical board URL after unquoting and
stripping slashes. -/
structure BoardInfo where
  id : List Nat
  url_path : List Nat
deriving DecidableEq

/-- Lines 281 to 284 of download_board: the reference used for the local
directory is replaced by the canonical URL path exactly when the supplied
reference equals the canonical board id. -/
def resolve_board_dirname (board : List Nat) (info : BoardInfo) : List Nat :=
  if board = info.id then info.url_path else board

/-- os.path.join of the output directory with the board directory name,
with slashes in the board reference replaced by the OS separator. -/
def board_local_path (out_dir : List Nat) (sep : Nat) (board : List Nat)
    (info : BoardInfo) : List Nat :=
  out_dir ++ [sep] ++ (resolve_board_dirname board info).map (fun c => if c = 47 then sep else c)

/-! ### Lemmas about the UTF-8 codec -/

theorem utf8EncodeChar_length (c : Nat) :
    (utf8EncodeChar c).length =
      if c < 0x80 then 1 else if c < 0x800 then 2 else if c < 0x10000 then 3 else 4 := by
  unfold utf8EncodeChar
  split_ifs <;> rfl

theorem utf8EncodeChar_length_pos (c : Nat) : 1 ≤ (utf8EncodeChar c).length := by
  rw [utf8EncodeChar_length]
  split_ifs <;> omega

theorem utf8Len_nil : utf8Len [] = 0 := rfl

theorem utf8Len_cons (c : Nat) (s : List Nat) :
    utf8Len (c :: s) = (utf8EncodeChar c).length + utf8Len s := by
  simp [utf8Len, utf8Encode]

theorem utf8Len_append (s t : List Nat) : utf8Len (s ++ t) = utf8Len s + utf8Len t := by
  simp [utf8Len, utf8Encode]

theorem length_le_utf8Len (s : List Nat) : s.length ≤ utf8Len s := by
  induction s with
  | nil => simp [utf8Len_nil]
  | cons c s ih =>
    rw [utf8Len_cons]
    have := utf8EncodeChar_length_pos c
    simp only [List.length_cons]
    omega

theorem utf8Len_ascii (s : List Nat) (h : ∀ c ∈ s, c < 128) : utf8Len s = s.length := by
  induction s with
  | nil => simp [utf8Len_nil]
  | cons c s ih =>
    rw [utf8Len_cons, utf8EncodeChar_length, if_pos (h c (List.mem_cons_self c s))]
    rw [ih (fun x hx => h x (List.mem_cons_of_mem c hx))]
    simp only [List.length_cons]
    omega

theorem utf8Len_eq_zero (s : List Nat) : utf8Len s = 0 ↔ s = [] := by
  cases s with
  | nil => simp [utf8Len_nil]
  | cons c s =>
    rw [utf8Len_cons]
    have := utf8EncodeChar_length_pos c
    constructor
    · intro h; omega
    · intro h; exact absurd h (List.cons_ne_nil c s)

theorem utf8Len_reverse (s : List Nat) : utf8Len s.reverse = utf8Len s := by
  induction s with
  | nil => rfl
  | cons c s ih =>
    rw [utf8Len_cons, List.reverse_cons, utf8Len_append, ih, utf8Len_cons, utf8Len_nil]
    omega

/-- Byte-length bound for the fuelled decoder: the decoded string never
re-encodes to more bytes than were consumed. -/
theorem utf8Len_decodeAux_le :
    ∀ (fuel : Nat) (bs : List Nat), bs.length ≤ fuel →
      utf8Len (utf8DecodeIgnoreAux fuel bs) ≤ bs.length := by
  intro fuel
  induction fuel with
  | zero =>
    intro bs h
    have hb : bs = [] := List.eq_nil_of_length_eq_zero (Nat.le_zero.mp h)
    subst hb
    simp [utf8DecodeIgnoreAux, utf8Len_nil]
  | succ fuel ih =>
    intro bs h
    cases bs with
    | nil => simp [utf8DecodeIgnoreAux, utf8Len_nil]
    | cons b0 rest =>
      simp only [List.length_cons] at h
      have hr : rest.length ≤ fuel := by omega
      simp only [utf8DecodeIgnoreAux, List.length_cons]
      split_ifs with h1 h2 h3 h4 h5
      · rw [utf8Len_cons, utf8EncodeChar_length, if_pos h1]
        have := ih rest hr
        omega
      · have := ih rest hr
        omega
      · cases rest with
        | nil => simp [utf8Len_nil]
        | cons b1 rest1 =>
          simp only [List.length_cons] at hr ⊢
          split_ifs with hcont
          · rw [utf8Len_cons, utf8EncodeChar_length]
            have h1l : rest1.length ≤ fuel := by omega
            have := ih rest1 h1l
            unfold IsCont at hcont
            split_ifs <;> omega
          · have := ih (b1 :: rest1) (by simp; omega)
            simp only [List.length_cons] at this
            omega
      · cases rest with
        | nil =>
          show utf8Len (utf8DecodeIgnoreAux fuel []) ≤ List.length ([] : List Nat) + 1
          cases fuel <;> simp [utf8DecodeIgnoreAux, utf8Len_nil]
        | cons b1 rest1 =>
          simp only [List.length_cons] at hr
          cases rest1 with
          | nil =>
            have h1 := ih [b1] (by simpa using hr)
            simp only [List.length_cons, List.length_nil] at h1 ⊢
            omega
          | cons b2 rest2 =>
            simp only [List.length_cons] at hr ⊢
            split_ifs with hcond
            · rw [utf8Len_cons, utf8EncodeChar_length]
              have h2l : rest2.length ≤ fuel := by omega
              have := ih rest2 h2l
              obtain ⟨hc1, hc2, hne1, hne2⟩ := hcond
              unfold IsCont at hc1 hc2
              split_ifs <;> omega
            · have := ih (b1 :: b2 :: rest2) (by simp only [List.length_cons]; omega)
              simp only [List.length_cons] at this
              omega
      · cases rest with
        | nil =>
          show utf8Len (utf8DecodeIgnoreAux fuel []) ≤ List.length ([] : List Nat) + 1
          cases fuel <;> simp [utf8DecodeIgnoreAux, utf8Len_nil]
        | cons b1 rest1 =>
          simp only [List.length_cons] at hr
          cases rest1 with
          | nil =>
            have h1 := ih [b1] (by simpa using hr)
            simp only [List.length_cons, List.length_nil] at h1 ⊢
            omega
          | cons b2 rest2 =>
            simp only [List.length_cons] at hr
            cases rest2 with
            | nil =>
              have h2 := ih [b1, b2] (by simp only [List.length_cons, List.length_nil]; omega)
              simp only [List.length_cons, List.length_nil] at h2 ⊢
              omega
            | cons b3 rest3 =>
              simp only [List.length_cons] at hr ⊢
              split_ifs with hcond
              · rw [utf8Len_cons, utf8EncodeChar_length]
                have h3l : rest3.length ≤ fuel := by omega
                have := ih rest3 h3l
                obtain ⟨hc1, hc2, hc3, hne1, hne2⟩ := hcond
                unfold IsCont at hc1 hc2 hc3
                split_ifs <;> omega
              · have := ih (b1 :: b2 :: b3 :: rest3) (by simp only [List.length_cons]; omega)
                simp only [List.length_cons] at this
                omega
      · have := ih rest hr
        omega

theorem utf8Len_decode_le (bs : List Nat) : utf8Len (utf8DecodeIgnore bs) ≤ bs.length :=
  utf8Len_decodeAux_le bs.length bs (Nat.le_refl _)

set_option maxRecDepth 4000 in
/-- Decoding a well-formed encoded character followed by anything parses
exactly that character. -/
theorem decodeAux_encodeChar (c : Nat) (hc : ValidChar c) (fuel : Nat) (tail : List Nat) :
    utf8DecodeIgnoreAux (fuel + 1) (utf8EncodeChar c ++ tail) =
      c :: utf8DecodeIgnoreAux fuel tail := by
  unfold ValidChar at hc
  unfold utf8EncodeChar
  by_cases h1 : c < 128
  · rw [if_pos h1]
    simp only [List.append_eq, List.cons_append, List.nil_append, List.singleton_append,
      utf8DecodeIgnoreAux]
    rw [if_pos h1]
  by_cases h2 : c < 2048
  · rw [if_neg h1, if_pos h2]
    simp only [List.append_eq, List.cons_append, List.nil_append, List.singleton_append,
      utf8DecodeIgnoreAux]
    have e1 : ¬(192 + c / 64 < 128) := by omega
    have e2 : ¬(192 + c / 64 < 194) := by omega
    have e3 : 192 + c / 64 < 224 := by omega
    have e4 : IsCont (128 + c % 64) := by unfold IsCont; omega
    rw [if_neg e1, if_neg e2, if_pos e3, if_pos e4]
    congr 1
    omega
  by_cases h3 : c < 65536
  · rw [if_neg h1, if_neg h2, if_pos h3]
    simp only [List.append_eq, List.cons_append, List.nil_append, List.singleton_append,
      utf8DecodeIgnoreAux]
    have e1 : ¬(224 + c / 4096 < 128) := by omega
    have e2 : ¬(224 + c / 4096 < 194) := by omega
    have e3 : ¬(224 + c / 4096 < 224) := by omega
    have e4 : 224 + c / 4096 < 240 := by omega
    have e5 : IsCont (128 + c / 64 % 64) ∧ IsCont (128 + c % 64) ∧
        ¬(224 + c / 4096 = 224 ∧ 128 + c / 64 % 64 < 160) ∧
        ¬(224 + c / 4096 = 237 ∧ 160 ≤ 128 + c / 64 % 64) := by
      unfold IsCont
      omega
    rw [if_neg e1, if_neg e2, if_neg e3, if_pos e4, if_pos e5]
    congr 1
    omega
  · rw [if_neg h1, if_neg h2, if_neg h3]
    simp only [List.append_eq, List.cons_append, List.nil_append, List.singleton_append,
      utf8DecodeIgnoreAux]
    have e1 : ¬(240 + c / 262144 < 128) := by omega
    have e2 : ¬(240 + c / 262144 < 194) := by omega
    have e3 : ¬(240 + c / 262144 < 224) := by omega
    have e4 : ¬(240 + c / 262144 < 240) := by omega
    have e5 : 240 + c / 262144 < 245 := by omega
    have e6 : IsCont (128 + c / 4096 % 64) ∧ IsCont (128 + c / 64 % 64) ∧
        IsCont (128 + c % 64) ∧
        ¬(240 + c / 262144 = 240 ∧ 128 + c / 4096 % 64 < 144) ∧
        ¬(240 + c / 262144 = 244 ∧ 144 ≤ 128 + c / 4096 % 64) := by
      unfold IsCont
      omega
    rw [if_neg e1, if_neg e2, if_neg e3, if_neg e4, if_pos e5, if_pos e6]
    congr 1
    omega

/-- A list of continuation bytes decodes to nothing: each byte is skipped. -/
theorem decodeAux_all_cont :
    ∀ (fuel : Nat) (bs : List Nat), (∀ b ∈ bs, 0x80 ≤ b ∧ b < 0xC0) →
      utf8DecodeIgnoreAux fuel bs = [] := by
  intro fuel
  induction fuel with
  | zero => intro bs h; cases bs <;> rfl
  | succ fuel ih =>
    intro bs h
    cases bs with
    | nil => rfl
    | cons b0 rest =>
      have hb := h b0 (List.mem_cons_self b0 rest)
      simp only [utf8DecodeIgnoreAux]
      rw [if_neg (by omega), if_pos (by omega)]
      exact ih rest (fun b hbm => h b (List.mem_cons_of_mem b0 hbm))

/-- A strict prefix of one encoded character decodes to nothing. -/
theorem decodeAux_encodeChar_strict (c : Nat) (hc : ValidChar c) (k fuel : Nat)
    (hk : k < (utf8EncodeChar c).length) :
    utf8DecodeIgnoreAux fuel ((utf8EncodeChar c).take k) = [] := by
  unfold ValidChar at hc
  have hcont2 : 0x80 ≤ 0x80 + c % 64 ∧ 0x80 + c % 64 < 0xC0 := by omega
  have hcont3 : 0x80 ≤ 0x80 + c / 64 % 64 ∧ 0x80 + c / 64 % 64 < 0xC0 := by omega
  have hcont4 : 0x80 ≤ 0x80 + c / 4096 % 64 ∧ 0x80 + c / 4096 % 64 < 0xC0 := by omega
  unfold utf8EncodeChar at hk ⊢
  split_ifs at hk ⊢ with h1 h2 h3
  · simp only [List.length_cons, List.length_nil] at hk
    have : k = 0 := by omega
    subst this
    cases fuel <;> rfl
  · simp only [List.length_cons, List.length_nil] at hk
    interval_cases k
    · cases fuel <;> rfl
    · show utf8DecodeIgnoreAux fuel [0xC0 + c / 64] = []
      cases fuel with
      | zero => rfl
      | succ f =>
        simp only [utf8DecodeIgnoreAux]
        rw [if_neg (by omega), if_neg (by omega), if_pos (by omega)]
  · simp only [List.length_cons, List.length_nil] at hk
    interval_cases k
    · cases fuel <;> rfl
    · show utf8DecodeIgnoreAux fuel [0xE0 + c / 4096] = []
      cases fuel with
      | zero => rfl
      | succ f =>
        simp only [utf8DecodeIgnoreAux]
        rw [if_neg (by omega), if_neg (by omega), if_neg (by omega), if_pos (by omega)]
    · show utf8DecodeIgnoreAux fuel [0xE0 + c / 4096, 0x80 + c / 64 % 64] = []
      cases fuel with
      | zero => rfl
      | succ f =>
        simp only [utf8DecodeIgnoreAux]
        rw [if_neg (by omega), if_neg (by omega), if_neg (by omega), if_pos (by omega)]
        exact decodeAux_all_cont f [0x80 + c / 64 % 64] (by
          intro b hb
          simp only [List.mem_singleton] at hb
          omega)
  · simp only [List.length_cons, List.length_nil] at hk
    interval_cases k
    · cases fuel <;> rfl
    · show utf8DecodeIgnoreAux fuel [0xF0 + c / 262144] = []
      cases fuel with
      | zero => rfl
      | succ f =>
        simp only [utf8DecodeIgnoreAux]
        rw [if_neg (by omega), if_neg (by omega), if_neg (by omega), if_neg (by omega),
          if_pos (by omega)]
    · show utf8DecodeIgnoreAux fuel [0xF0 + c / 262144, 0x80 + c / 4096 % 64] = []
      cases fuel with
      | zero => rfl
      | succ f =>
        simp only [utf8DecodeIgnoreAux]
        rw [if_neg (by omega), if_neg (by omega), if_neg (by omega), if_neg (by omega),
          if_pos (by omega)]
        exact decodeAux_all_cont f [0x80 + c / 4096 % 64] (by
          intro b hb
          simp only [List.mem_singleton] at hb
          omega)
    · show utf8DecodeIgnoreAux fuel
        [0xF0 + c / 262144, 0x80 + c / 4096 % 64, 0x80 + c / 64 % 64] = []
      cases fuel with
      | zero => rfl
      | succ f =>
        simp only [utf8DecodeIgnoreAux]
        rw [if_neg (by omega), if_neg (by omega), if_neg (by omega), if_neg (by omega),
          if_pos (by omega)]
        exact decodeAux_all_cont f [0x80 + c / 4096 % 64, 0x80 + c / 64 % 64] (by
          intro b hb
          simp only [List.mem_cons, List.mem_singleton] at hb
          rcases hb with hb | hb | hb
          · omega
          · omega
          · cases hb)

/-- Decoding any byte-prefix of an encoded valid string yields a prefix of
the string: truncation never invents characters and never keeps a split
multi-byte character. -/
theorem decodeAux_take_encode (s : List Nat) (hval : ∀ c ∈ s, ValidChar c) :
    ∀ (fuel k : Nat), ((utf8Encode s).take k).length ≤ fuel →
      ∃ n, utf8DecodeIgnoreAux fuel ((utf8Encode s).take k) = s.take n := by
  induction s with
  | nil =>
    intro fuel k h
    refine ⟨0, ?_⟩
    simp only [utf8Encode, List.map_nil, List.flatten_nil, List.take_nil]
    cases fuel <;> rfl
  | cons c s ih =>
    intro fuel k h
    have hc : ValidChar c := hval c (List.mem_cons_self c s)
    have hs : ∀ x ∈ s, ValidChar x := fun x hx => hval x (List.mem_cons_of_mem c hx)
    have henc : utf8Encode (c :: s) = utf8EncodeChar c ++ utf8Encode s := by
      simp [utf8Encode]
    rw [henc, List.take_append_eq_append_take] at h ⊢
    by_cases hk : (utf8EncodeChar c).length ≤ k
    · rw [List.take_of_length_le hk] at h ⊢
      rw [List.length_append] at h
      have hfuel : 1 ≤ fuel := by
        have := utf8EncodeChar_length_pos c
        omega
      obtain ⟨f, rfl⟩ : ∃ f, fuel = f + 1 := ⟨fuel - 1, by omega⟩
      rw [decodeAux_encodeChar c hc f]
      obtain ⟨n, hn⟩ := ih hs f (k - (utf8EncodeChar c).length) (by
        have := utf8EncodeChar_length_pos c
        omega)
      exact ⟨n + 1, by rw [hn, List.take_succ_cons]⟩
    · push_neg at hk
      rw [Nat.sub_eq_zero_of_le (Nat.le_of_lt hk), List.take_zero, List.append_nil] at h ⊢
      exact ⟨0, by rw [decodeAux_encodeChar_strict c hc k fuel hk, List.take_zero]⟩

/-- utf8DecodeIgnore of a byte-prefix of an encoded valid string is a
character-prefix of the string. -/
theorem decode_take_encode (s : List Nat) (hval : ∀ c ∈ s, ValidChar c) (k : Nat) :
    ∃ n, utf8DecodeIgnore ((utf8Encode s).take k) = s.take n :=
  decodeAux_take_encode s hval ((utf8Encode s).take k).length k (Nat.le_refl _)

/-! ### Lemmas about limit_string and limit_string_bytes -/

theorem ellipsisByteLen_eq : ellipsisByteLen = 3 := rfl

/-- The output of limit_string_bytes always fits the byte budget. -/
theorem utf8Len_limit_string_bytes_le (s : List Nat) (B : Nat) :
    utf8Len (limit_string_bytes s B) ≤ B := by
  unfold limit_string_bytes
  split_ifs with hf h3 he
  · exact hf
  · simp [utf8Len_nil]
  · rw [he, ellipsisByteLen_eq]
    decide
  · rw [utf8Len_append]
    have hd := utf8Len_decode_le ((utf8Encode s).take (B - ellipsisByteLen))
    have ht : ((utf8Encode s).take (B - ellipsisByteLen)).length ≤ B - ellipsisByteLen := by
      rw [List.length_take]
      omega
    have he3 : utf8Len [ellipsisChar] = 3 := rfl
    rw [ellipsisByteLen_eq] at *
    omega

/-- The output of limit_string_bytes is a character-prefix of the input,
possibly followed by the single ellipsis character: truncation never
splits a multi-byte character. -/
theorem limit_string_bytes_take (s : List Nat) (B : Nat) (hval : ∀ c ∈ s, ValidChar c) :
    ∃ n, limit_string_bytes s B = s.take n ∨
      limit_string_bytes s B = s.take n ++ [ellipsisChar] := by
  unfold limit_string_bytes
  split_ifs with hf h3 he
  · exact ⟨s.length, Or.inl (List.take_length s).symm⟩
  · exact ⟨0, Or.inl (List.take_zero s).symm⟩
  · exact ⟨0, Or.inr (by rw [List.take_zero, List.nil_append])⟩
  · obtain ⟨n, hn⟩ := decode_take_encode s hval (B - ellipsisByteLen)
    exact ⟨n, Or.inr (by rw [hn])⟩

/-- When the string fits the byte budget it is returned unchanged. -/
theorem limit_string_bytes_of_fits (s : List Nat) (B : Nat) (h : utf8Len s ≤ B) :
    limit_string_bytes s B = s := by
  unfold limit_string_bytes
  rw [if_pos (show (utf8Encode s).length ≤ B from h)]

/-- When the string does not fit and the budget is below the byte length of
the ellipsis, the result collapses to the empty string. -/
theorem limit_string_bytes_of_small (s : List Nat) (B : Nat) (hgt : B < utf8Len s)
    (hB : B < ellipsisByteLen) : limit_string_bytes s B = [] := by
  unfold limit_string_bytes
  rw [if_neg (by unfold utf8Len at hgt; omega), if_pos hB]

/-- When the string does not fit and the budget allows it, the result ends
with the ellipsis character. -/
theorem limit_string_bytes_of_trunc (s : List Nat) (B : Nat) (hgt : B < utf8Len s)
    (hB : ellipsisByteLen ≤ B) :
    ∃ t, limit_string_bytes s B = t ++ [ellipsisChar] := by
  unfold limit_string_bytes
  rw [if_neg (by unfold utf8Len at hgt; omega), if_neg (by omega)]
  by_cases he : B = ellipsisByteLen
  · rw [if_pos he]
    exact ⟨[], by rw [List.nil_append]⟩
  · rw [if_neg he]
    exact ⟨_, rfl⟩

/-- When the string fits the length budget, limit_string returns it
unchanged. -/
theorem limit_string_of_le (s : List Nat) (n : Int) (h : (s.length : Int) ≤ n) :
    limit_string s n = s := by
  unfold limit_string
  rw [if_neg (by omega)]

/-- When the string exceeds a positive length budget, limit_string keeps
the first n - 1 characters and appends the ellipsis. -/
theorem limit_string_of_gt (s : List Nat) (n : Nat) (h1 : 1 ≤ n) (h : n < s.length) :
    limit_string s (n : Int) = s.take (n - 1) ++ [ellipsisChar] := by
  unfold limit_string pyTake
  rw [if_pos (by omega), if_pos (by omega)]
  congr 2
  omega

/-- The output of limit_string never exceeds a positive length budget. -/
theorem limit_string_length_le (s : List Nat) (n : Nat) (h1 : 1 ≤ n) :
    (limit_string s (n : Int)).length ≤ n := by
  by_cases h : n < s.length
  · rw [limit_string_of_gt s n h1 h]
    simp only [List.length_append, List.length_take, List.length_cons, List.length_nil]
    omega
  · rw [limit_string_of_le s (n : Int) (by omega)]
    omega

/-! ### Byte-length bounds for the note transformations -/

/-- The character translation of universal_filename never increases the
byte length of a character. -/
theorem utf8Len_filterMap_translate_le (s : List Nat) :
    utf8Len (s.filterMap translateChar) ≤ utf8Len s := by
  induction s with
  | nil => simp [utf8Len_nil]
  | cons c s ih =>
    rw [utf8Len_cons]
    cases ht : translateChar c with
    | none =>
      rw [List.filterMap_cons_none ht]
      omega
    | some d =>
      rw [List.filterMap_cons_some ht, utf8Len_cons]
      have hd : (utf8EncodeChar d).length ≤ (utf8EncodeChar c).length := by
        unfold translateChar at ht
        split_ifs at ht with t1 t2 t3
        · cases ht
          rcases t1 with rfl | rfl <;> decide
        · cases ht
          subst t2
          decide
        · cases ht
          exact Nat.le_refl _
      omega

theorem utf8Len_dropWhile_le (p : Nat → Bool) (s : List Nat) :
    utf8Len (s.dropWhile p) ≤ utf8Len s := by
  induction s with
  | nil => simp [utf8Len_nil]
  | cons c s ih =>
    rw [List.dropWhile_cons, utf8Len_cons]
    split_ifs with h
    · omega
    · rw [utf8Len_cons]

/-- universal_filename never increases the byte length. -/
theorem utf8Len_universal_filename_le (s : List Nat) :
    utf8Len (universal_filename s) ≤ utf8Len s := by
  unfold universal_filename
  rw [utf8Len_reverse]
  calc utf8Len ((s.filterMap translateChar).reverse.dropWhile isDotOrSpace)
      ≤ utf8Len (s.filterMap translateChar).reverse := utf8Len_dropWhile_le _ _
    _ = utf8Len (s.filterMap translateChar) := utf8Len_reverse _
    _ ≤ utf8Len s := utf8Len_filterMap_translate_le s

/-- A character of the output of limit_string comes from the input or is
the appended ellipsis. -/
theorem mem_limit_string (s : List Nat) (L : Int) (c : Nat)
    (h : c ∈ limit_string s L) : c ∈ s ∨ c = ellipsisChar := by
  unfold limit_string at h
  split_ifs at h with h1
  · rw [List.mem_append] at h
    rcases h with h | h
    · unfold pyTake at h
      split_ifs at h <;> exact Or.inl (List.take_subset _ _ h)
    · rw [List.mem_singleton] at h
      exact Or.inr h
  · exact Or.inl h

/-- A character of the output of limit_string_bytes comes from the input
or is the appended ellipsis. -/
theorem mem_limit_string_bytes (s : List Nat) (B : Nat) (hval : ∀ c ∈ s, ValidChar c)
    (c : Nat) (h : c ∈ limit_string_bytes s B) : c ∈ s ∨ c = ellipsisChar := by
  obtain ⟨n, hn | hn⟩ := limit_string_bytes_take s B hval <;> rw [hn] at h
  · exact Or.inl (List.take_subset n s h)
  · rw [List.mem_append] at h
    rcases h with h | h
    · exact Or.inl (List.take_subset n s h)
    · rw [List.mem_singleton] at h
      exact Or.inr h

/-- A character of the output of universal_filename comes from the input
or is one of the two translation targets (hyphen, single quote). -/
theorem mem_universal_filename (t : List Nat) (c : Nat)
    (h : c ∈ universal_filename t) : c ∈ t ∨ c = 45 ∨ c = 39 := by
  unfold universal_filename at h
  rw [List.mem_reverse] at h
  have h2 : c ∈ (t.filterMap translateChar).reverse :=
    (List.dropWhile_sublist _).subset h
  rw [List.mem_reverse, List.mem_filterMap] at h2
  obtain ⟨a, ha, hfa⟩ := h2
  unfold translateChar at hfa
  split_ifs at hfa with t1 t2 t3
  · cases hfa
    exact Or.inr (Or.inl rfl)
  · cases hfa
    exact Or.inr (Or.inr rfl)
  · cases hfa
    exact Or.inl ha

/-- On characters that are ASCII or the ellipsis, the lowering preserves
the byte length (the expanding U+0130 mapping is outside this set). -/
theorem utf8Len_pyLowerStr (s : List Nat) (h : ∀ c ∈ s, c < 128 ∨ c = ellipsisChar) :
    utf8Len (pyLowerStr s) = utf8Len s := by
  unfold pyLowerStr
  induction s with
  | nil => rfl
  | cons c t ih =>
    rw [List.map_cons, List.flatten_cons, utf8Len_append, utf8Len_cons]
    have hc := h c (List.mem_cons_self c t)
    have h1 : utf8Len (pyLowerChar c) = (utf8EncodeChar c).length := by
      unfold pyLowerChar
      rcases hc with hc | hc
      · rw [if_neg (by omega)]
        split_ifs with e2
        · rw [utf8Len_cons, utf8Len_nil, utf8EncodeChar_length, utf8EncodeChar_length]
          split_ifs <;> omega
        · rw [utf8Len_cons, utf8Len_nil]
          omega
      · subst hc
        decide
    rw [h1, ih (fun x hx => h x (List.mem_cons_of_mem c hx))]

/-- A whitespace character is ASCII and encodes to one byte. -/
theorem utf8Len_space (c : Nat) (h : isSpaceChar c = true) :
    (utf8EncodeChar c).length = 1 := by
  unfold isSpaceChar at h
  simp only [Bool.or_eq_true, decide_eq_true_eq] at h
  rw [utf8EncodeChar_length, if_pos (by omega)]

/-- Joining the whitespace-split words with underscores never increases the
byte length: every separator run of at least one whitespace byte is
replaced by at most one underscore byte. -/
theorem utf8Len_join_split_le (s acc : List Nat) :
    utf8Len (pyJoin [95] (splitWordsAux s acc)) ≤ utf8Len s + utf8Len acc := by
  induction s generalizing acc with
  | nil =>
    unfold splitWordsAux
    split_ifs with h
    · simp [pyJoin, utf8Len_nil]
    · show utf8Len acc.reverse ≤ _
      rw [utf8Len_reverse, utf8Len_nil]
      omega
  | cons c rest ih =>
    unfold splitWordsAux
    split_ifs with hsp hacc
    · subst hacc
      have h1 := utf8Len_space c hsp
      have hi := ih []
      rw [utf8Len_cons]
      rw [utf8Len_nil] at hi ⊢
      omega
    · have h1 := utf8Len_space c hsp
      rw [utf8Len_cons]
      cases hw : splitWordsAux rest [] with
      | nil =>
        show utf8Len acc.reverse ≤ _
        rw [utf8Len_reverse]
        omega
      | cons w ws =>
        have hjoin : pyJoin [95] (acc.reverse :: w :: ws) =
            acc.reverse ++ [95] ++ pyJoin [95] (w :: ws) := rfl
        rw [hjoin, utf8Len_append, utf8Len_append, utf8Len_reverse]
        have hi := ih []
        rw [hw] at hi
        rw [utf8Len_nil] at hi
        have h95 : utf8Len [95] = 1 := rfl
        omega
    · have hi := ih (c :: acc)
      rw [utf8Len_cons] at hi ⊢
      omega

/-- For a note made of ASCII characters and possibly the ellipsis, the
whole note pipeline of create_pin_filename after the byte truncation stays
within the byte budget: every step after the truncation is then
byte-non-increasing. -/
theorem note_pipeline_le (s : List Nat) (B : Nat)
    (hs : ∀ c ∈ s, c < 128 ∨ c = ellipsisChar) :
    utf8Len (pyJoin [95] (pySplit (pyLowerStr (universal_filename (limit_string_bytes s B))))) ≤
      B := by
  have hval : ∀ c ∈ s, ValidChar c := by
    intro c hc
    rcases hs c hc with h | h
    · exact ⟨by omega, by omega⟩
    · subst h
      decide
  have htame2 : ∀ c ∈ limit_string_bytes s B, c < 128 ∨ c = ellipsisChar := by
    intro c hc
    rcases mem_limit_string_bytes s B hval c hc with h | h
    · exact hs c h
    · exact Or.inr h
  have htame3 : ∀ c ∈ universal_filename (limit_string_bytes s B),
      c < 128 ∨ c = ellipsisChar := by
    intro c hc
    rcases mem_universal_filename (limit_string_bytes s B) c hc with h | h | h
    · exact htame2 c h
    · subst h
      exact Or.inl (by omega)
    · subst h
      exact Or.inl (by omega)
  have h2 := utf8Len_limit_string_bytes_le s B
  have h3 := utf8Len_universal_filename_le (limit_string_bytes s B)
  have h5 := utf8Len_pyLowerStr (universal_filename (limit_string_bytes s B)) htame3
  have h4 := utf8Len_join_split_le (pyLowerStr (universal_filename (limit_string_bytes s B))) []
  rw [utf8Len_nil] at h4
  unfold pySplit
  omega

/-- Every pin file name is some prefix followed by the id and the
extension, and the prefix is empty or ends with the underscore
separator. -/
theorem create_pin_filename_shape (pin : Pin) (ext : List Nat) :
    ∃ w, create_pin_filename pin ext = w ++ pin.id ++ ext ∧
      (w = [] ∨ ∃ u, w = u ++ [95]) := by
  simp only [create_pin_filename]
  split_ifs with h0 h4
  · exact ⟨[], by rw [List.nil_append], Or.inl rfl⟩
  · exact ⟨_, rfl, Or.inr ⟨_, rfl⟩⟩
  · exact ⟨_, rfl, Or.inl (by
      rw [not_not] at h4
      exact h4)⟩

/-! ### Lemmas about pyRfind and splitext -/

theorem pyRfind_of_not_mem (s : List Nat) (c : Nat) (h : c ∉ s) : pyRfind s c = -1 := by
  induction s with
  | nil => rfl
  | cons a rest ih =>
    have h1 : c ∉ rest := fun hm => h (List.mem_cons_of_mem a hm)
    have h2 : a ≠ c := fun he => h (he ▸ List.mem_cons_self a rest)
    simp only [pyRfind, ih h1]
    rw [if_neg (by omega), if_neg h2]

theorem pyRfind_append (l r : List Nat) (c : Nat) (h : c ∉ r) :
    pyRfind (l ++ c :: r) c = (l.length : Int) := by
  induction l with
  | nil =>
    rw [List.nil_append]
    show (if 0 ≤ pyRfind r c then pyRfind r c + 1 else if c = c then 0 else -1) =
      (([] : List Nat).length : Int)
    rw [pyRfind_of_not_mem r c h, if_neg (by omega), if_pos rfl]
    simp
  | cons a l ih =>
    rw [List.cons_append]
    show (if 0 ≤ pyRfind (l ++ c :: r) c then pyRfind (l ++ c :: r) c + 1
      else if a = c then 0 else -1) = ((a :: l).length : Int)
    rw [ih, if_pos (by omega)]
    simp only [List.length_cons]
    push_cast
    omega

/-- Characters of an alphanumeric string are neither periods, underscores
nor slashes. -/
theorem alnum_chars (s : List Nat) (h : pyIsAlnum s = true) :
    s ≠ [] ∧ ∀ c ∈ s, c ≠ 46 ∧ c ≠ 95 := by
  unfold pyIsAlnum at h
  simp only [Bool.and_eq_true, Bool.not_eq_true', List.isEmpty_eq_false,
    List.all_eq_true] at h
  refine ⟨h.1, fun c hc => ?_⟩
  have := h.2 c hc
  unfold isAsciiAlnumChar at this
  simp only [Bool.or_eq_true, Bool.and_eq_true, decide_eq_true_eq] at this
  omega

/-- splitext on a name of the form stem ++ period ++ dot-free extension
cuts exactly at that period, provided the stem holds a non-period
character. -/
theorem splitext_stem_append (stem e : List Nat) (he : 46 ∉ e)
    (hne : ∃ x ∈ stem, x ≠ 46) :
    splitext_stem (stem ++ 46 :: e) = stem := by
  unfold splitext_stem
  rw [pyRfind_append stem e 46 he]
  obtain ⟨x, hx, hx46⟩ := hne
  have hlen : 0 < stem.length := List.length_pos_of_mem hx
  rw [if_pos ?side]
  case side =>
    refine ⟨by omega, ?_⟩
    rw [Int.toNat_natCast, List.take_left]
    simp only [List.any_eq_true, decide_eq_true_eq]
    exact ⟨x, hx, hx46⟩
  rw [Int.toNat_natCast, List.take_left]

/-- The scanner decoding of a well-shaped file name recovers the id. -/
theorem scan_pin_id_of_shape (w id e : List Nat) (hid : pyIsAlnum id = true)
    (he : 46 ∉ e) (hw : w = [] ∨ ∃ u, w = u ++ [95]) :
    scan_pin_id (w ++ id ++ (46 :: e)) = id := by
  obtain ⟨hid_ne, hid_ch⟩ := alnum_chars id hid
  have h95 : (95 : Nat) ∉ id := fun hm => (hid_ch 95 hm).2 rfl
  have h46 : (46 : Nat) ∉ id := fun hm => (hid_ch 46 hm).1 rfl
  obtain ⟨x, hx⟩ := List.exists_mem_of_ne_nil id hid_ne
  have hstem : splitext_stem ((w ++ id) ++ 46 :: e) = w ++ id := by
    refine splitext_stem_append (w ++ id) e he ⟨x, List.mem_append_right w hx, ?_⟩
    exact (hid_ch x hx).1
  simp only [scan_pin_id, hstem]
  rcases hw with rfl | ⟨u, rfl⟩
  · rw [List.nil_append, pyRfind_of_not_mem id 95 h95]
    rfl
  · have hsplit : (u ++ [95]) ++ id = u ++ 95 :: id := by
      rw [List.append_assoc, List.singleton_append]
    rw [hsplit, pyRfind_append u id 95 h95]
    have htn : ((u.length : Int) + 1).toNat = u.length + 1 := by omega
    rw [htn]
    have hupd : u ++ 95 :: id = (u ++ [95]) ++ id := by
      rw [List.append_assoc, List.singleton_append]
    rw [hupd]
    have hlen : (u ++ [95]).length = u.length + 1 := by simp
    rw [← hlen, List.drop_left]

/-! ### Lemmas about the download orchestrator -/

theorem remove_checkpoint_eq_none (file : Option Checkpoint) :
    remove_checkpoint_ignoring_missing file = none := by
  cases file <;> rfl

theorem run_pages_nil (dlOk : Pin → Bool) (dlExt : Pin → List Nat)
    (existing : List (List Nat × List Nat)) (n : Nat) (st : BoardState) :
    run_pages dlOk dlExt existing [] n st = (st, true) := rfl

theorem run_pages_cons (dlOk : Pin → Bool) (dlExt : Pin → List Nat)
    (existing : List (List Nat × List Nat)) (page : Page) (rest : List Page)
    (n : Nat) (st : BoardState) :
    run_pages dlOk dlExt existing (page :: rest) n st =
      if (page_step dlOk dlExt existing page (n + 1) st).2 then
        run_pages dlOk dlExt existing rest (n + 1)
          (page_step dlOk dlExt existing page (n + 1) st).1
      else ((page_step dlOk dlExt existing page (n + 1) st).1, false) := rfl

/-- The page error count counts the page new pins whose download fails. -/
theorem download_errors_eq (dlOk : Pin → Bool) (dlExt : Pin → List Nat)
    (existing : List (List Nat × List Nat)) (st : BoardState) (page : Page)
    (dir : List (List Nat)) :
    (download_new_pins dlOk dlExt dir (reconcile_page existing st.dir page.pins).2).2 =
      page_num_errors dlOk existing st page := rfl

/-- With at least one failed download, the page step aborts: it keeps the
checkpoint exactly as it was and reports no continuation. -/
theorem page_step_error (dlOk : Pin → Bool) (dlExt : Pin → List Nat)
    (existing : List (List Nat × List Nat)) (page : Page) (pn : Nat) (st : BoardState)
    (herr : 0 < page_num_errors dlOk existing st page) :
    page_step dlOk dlExt existing page pn st =
      ({ checkpoint := st.checkpoint,
         dir := (download_new_pins dlOk dlExt (reconcile_page existing st.dir page.pins).1
           (reconcile_page existing st.dir page.pins).2).1 }, false) := by
  have hnew : (reconcile_page existing st.dir page.pins).2 ≠ [] := by
    intro hnil
    unfold page_num_errors page_new_pins at herr
    rw [hnil] at herr
    simp at herr
  simp only [page_step]
  rw [if_pos ⟨hnew, herr⟩]

/-- With zero download errors the page step continues, and the checkpoint
moves to the yielded cursor with the page ordinal, or is deleted on the
last page. -/
theorem page_step_no_error (dlOk : Pin → Bool) (dlExt : Pin → List Nat)
    (existing : List (List Nat × List Nat)) (page : Page) (pn : Nat) (st : BoardState)
    (herr : page_num_errors dlOk existing st page = 0) :
    page_step dlOk dlExt existing page pn st =
      (match page.cursor with
       | some c =>
         ({ checkpoint := some { next_page_cursor := c, num_complete_pages := pn },
            dir := (download_new_pins dlOk dlExt (reconcile_page existing st.dir page.pins).1
              (reconcile_page existing st.dir page.pins).2).1 } : BoardState)
       | none =>
         ({ checkpoint := remove_checkpoint_ignoring_missing st.checkpoint,
            dir := (download_new_pins dlOk dlExt (reconcile_page existing st.dir page.pins).1
              (reconcile_page existing st.dir page.pins).2).1 } : BoardState),
       true) := by
  have hcond : ¬((reconcile_page existing st.dir page.pins).2 ≠ [] ∧
      0 < (download_new_pins dlOk dlExt (reconcile_page existing st.dir page.pins).1
        (reconcile_page existing st.dir page.pins).2).2) := by
    intro hand
    have h2 := hand.2
    rw [download_errors_eq dlOk dlExt existing st page] at h2
    omega
  simp only [page_step]
  rw [if_neg hcond]
  cases page.cursor <;> rfl

/-! ### Lemmas about the reconciliation pass -/

theorem reconcile_pin_new (existing : List (List Nat × List Nat)) (dir : List (List Nat))
    (pin : Pin) (h : dictLookup existing pin.id = none) :
    reconcile_pin existing dir pin = (dir, true) := by
  simp only [reconcile_pin, h]

theorem reconcile_pin_present (existing : List (List Nat × List Nat))
    (dir : List (List Nat)) (pin : Pin) (old : List Nat)
    (h : dictLookup existing pin.id = some old) :
    reconcile_pin existing dir pin =
      (if create_pin_filename pin (splitext_ext old) = old then dir
       else dir.replace old (create_pin_filename pin (splitext_ext old)), false) := by
  simp only [reconcile_pin, h]
  split_ifs <;> rfl

theorem reconcile_page_nil (existing : List (List Nat × List Nat))
    (dir : List (List Nat)) : reconcile_page existing dir [] = (dir, []) := rfl

theorem reconcile_page_cons (existing : List (List Nat × List Nat))
    (dir : List (List Nat)) (pin : Pin) (rest : List Pin) :
    reconcile_page existing dir (pin :: rest) =
      ((reconcile_page existing (reconcile_pin existing dir pin).1 rest).1,
       if (reconcile_pin existing dir pin).2 then
         pin :: (reconcile_page existing (reconcile_pin existing dir pin).1 rest).2
       else (reconcile_page existing (reconcile_pin existing dir pin).1 rest).2) := rfl

/-- Every pin classified as new by the reconciliation pass is absent from
the existing-pin index. -/
theorem mem_reconcile_new (existing : List (List Nat × List Nat)) :
    ∀ (ps : List Pin) (dir : List (List Nat)) (q : Pin),
      q ∈ (reconcile_page existing dir ps).2 → dictLookup existing q.id = none := by
  intro ps
  induction ps with
  | nil =>
    intro dir q hq
    rw [reconcile_page_nil] at hq
    cases hq
  | cons pin rest ih =>
    intro dir q hq
    rw [reconcile_page_cons] at hq
    cases hlk : dictLookup existing pin.id with
    | none =>
      rw [reconcile_pin_new existing dir pin hlk] at hq
      simp only [if_pos] at hq
      rcases List.mem_cons.mp hq with rfl | hmem
      · exact hlk
      · exact ih _ q hmem
    | some old =>
      rw [reconcile_pin_present existing dir pin old hlk] at hq
      simp only [if_neg Bool.false_ne_true] at hq
      exact ih _ q hq

/-! ### Claim C1 -/

/-- C1: for every board run and every page, if downloading the new pins of
the page produces at least one per-pin error, download_board returns
immediately without writing the checkpoint: the checkpoint on disk after
the run equals the checkpoint that existed before the page started, the
run ends unfinished, and the pages after the failing one are never
processed (the run result is the same as if the failing page were the last
input).  Logging of the error count is outside the model. -/
theorem c1_page_errors_abort (dlOk : Pin → Bool) (dlExt : Pin → List Nat)
    (existing : List (List Nat × List Nat)) (page : Page) (rest : List Page)
    (n : Nat) (st : BoardState)
    (herr : 0 < page_num_errors dlOk existing st page) :
    (run_pages dlOk dlExt existing (page :: rest) n st).1.checkpoint = st.checkpoint ∧
    run_pages dlOk dlExt existing (page :: rest) n st =
      run_pages dlOk dlExt existing [page] n st ∧
    (run_pages dlOk dlExt existing (page :: rest) n st).2 = false := by
  have hstep := page_step_error dlOk dlExt existing page (n + 1) st herr
  have h1 : ∀ tail : List Page, run_pages dlOk dlExt existing (page :: tail) n st =
      ({ checkpoint := st.checkpoint,
         dir := (download_new_pins dlOk dlExt (reconcile_page existing st.dir page.pins).1
           (reconcile_page existing st.dir page.pins).2).1 }, false) := by
    intro tail
    rw [run_pages_cons, hstep]
    rfl
  refine ⟨by rw [h1 rest], by rw [h1 rest, h1 []], by rw [h1 rest]⟩

/-- C1 witness: a one-pin page whose download fails, after a run that had
already completed seven pages. -/
theorem c1_witness :
    0 < page_num_errors (fun _ => false) []
        { checkpoint := some { next_page_cursor := [98], num_complete_pages := 7 }, dir := [] }
        { pins := [{ id := [49], note := [] }], cursor := some [99] } ∧
    (run_pages (fun _ => false) (fun _ => [46]) []
        [{ pins := [{ id := [49], note := [] }], cursor := some [99] },
         { pins := [], cursor := none }] 7
        { checkpoint := some { next_page_cursor := [98], num_complete_pages := 7 },
          dir := [] }).1.checkpoint =
      some { next_page_cursor := [98], num_complete_pages := 7 } :=
  ⟨by decide,
   (c1_page_errors_abort (fun _ => false) (fun _ => [46]) []
     { pins := [{ id := [49], note := [] }], cursor := some [99] }
     [{ pins := [], cursor := none }] 7
     { checkpoint := some { next_page_cursor := [98], num_complete_pages := 7 }, dir := [] }
     (by decide)).1⟩

/-! ### Claim C2 -/

/-- C2: for every page whose downloads complete with zero errors, when the
page came with a cursor the checkpoint is set to that cursor together with
the ordinal of the page just completed, and when the cursor is null (the
last page) the checkpoint file is deleted; in both cases the run continues
with the following pages. -/
theorem c2_page_success_checkpoint (dlOk : Pin → Bool) (dlExt : Pin → List Nat)
    (existing : List (List Nat × List Nat)) (page : Page) (rest : List Page)
    (n : Nat) (st : BoardState)
    (herr : page_num_errors dlOk existing st page = 0) :
    (∀ c, page.cursor = some c →
      (page_step dlOk dlExt existing page (n + 1) st).1.checkpoint =
        some { next_page_cursor := c, num_complete_pages := n + 1 }) ∧
    (page.cursor = none →
      (page_step dlOk dlExt existing page (n + 1) st).1.checkpoint = none) ∧
    run_pages dlOk dlExt existing (page :: rest) n st =
      run_pages dlOk dlExt existing rest (n + 1)
        (page_step dlOk dlExt existing page (n + 1) st).1 := by
  refine ⟨?_, ?_, ?_⟩
  · intro c hc
    have hstep := page_step_no_error dlOk dlExt existing page (n + 1) st herr
    rw [hc] at hstep
    rw [hstep]
  · intro hc
    have hstep := page_step_no_error dlOk dlExt existing page (n + 1) st herr
    rw [hc] at hstep
    rw [hstep]
    exact remove_checkpoint_eq_none st.checkpoint
  · have hstep := page_step_no_error dlOk dlExt existing page (n + 1) st herr
    rw [run_pages_cons, hstep]
    rfl

/-- C2 witness: a one-pin page downloading cleanly as fifth page persists
the checkpoint with the yielded cursor and ordinal five. -/
theorem c2_witness :
    page_num_errors (fun _ => true) [] { checkpoint := none, dir := [] }
      { pins := [{ id := [49], note := [] }], cursor := some [99] } = 0 ∧
    (page_step (fun _ => true) (fun _ => [46, 106]) []
        { pins := [{ id := [49], note := [] }], cursor := some [99] } (4 + 1)
        { checkpoint := none, dir := [] }).1.checkpoint =
      some { next_page_cursor := [99], num_complete_pages := 4 + 1 } :=
  ⟨by decide,
   (c2_page_success_checkpoint (fun _ => true) (fun _ => [46, 106]) []
     { pins := [{ id := [49], note := [] }], cursor := some [99] } [] 4
     { checkpoint := none, dir := [] } (by decide)).1 [99] rfl⟩

/-! ### Claim C10 -/

/-- C10: when the final page (null cursor) completes with zero errors and
no checkpoint file exists on disk, the run still completes: the checkpoint
deletion raises FileNotFoundError internally (os_remove on an absent file
is an error) but the surrounding handler swallows it, the run reports
completion, and the checkpoint stays absent. -/
theorem c10_missing_checkpoint_delete (dlOk : Pin → Bool) (dlExt : Pin → List Nat)
    (existing : List (List Nat × List Nat)) (page : Page) (n : Nat) (st : BoardState)
    (h0 : st.checkpoint = none) (herr : page_num_errors dlOk existing st page = 0)
    (hc : page.cursor = none) :
    os_remove st.checkpoint = Except.error () ∧
    (run_pages dlOk dlExt existing [page] n st).2 = true ∧
    (run_pages dlOk dlExt existing [page] n st).1.checkpoint = none := by
  have hstep := page_step_no_error dlOk dlExt existing page (n + 1) st herr
  rw [hc] at hstep
  refine ⟨by rw [h0]; rfl, ?_, ?_⟩
  · rw [run_pages_cons, hstep]
    rfl
  · rw [run_pages_cons, hstep]
    exact remove_checkpoint_eq_none st.checkpoint

/-- C10 witness: a single empty last page with no checkpoint on disk. -/
theorem c10_witness :
    os_remove (none : Option Checkpoint) = Except.error () ∧
    (run_pages (fun _ => true) (fun _ => []) [] [{ pins := [], cursor := none }] 0
      { checkpoint := none, dir := [] }).2 = true :=
  ⟨(c10_missing_checkpoint_delete (fun _ => true) (fun _ => []) []
      { pins := [], cursor := none } 0 { checkpoint := none, dir := [] }
      rfl (by decide) rfl).1,
   (c10_missing_checkpoint_delete (fun _ => true) (fun _ => []) []
      { pins := [], cursor := none } 0 { checkpoint := none, dir := [] }
      rfl (by decide) rfl).2.1⟩

/-! ### Claim C6 -/

/-- C6: a pin whose id is present in the existing-pin index is never
classified as new, so its image is never re-downloaded (only new pins are
handed to the download pool); when the filename recomputed from the pin
metadata and the old extension equals the on-disk name no directory change
happens, and otherwise the old file is renamed to the recomputed name. -/
theorem c6_existing_pin_no_redownload (existing : List (List Nat × List Nat))
    (dir : List (List Nat)) (pin : Pin) (old : List Nat) (ps : List Pin)
    (h : dictLookup existing pin.id = some old) (_hmem : pin ∈ ps) :
    pin ∉ (reconcile_page existing dir ps).2 ∧
    (reconcile_pin existing dir pin).2 = false ∧
    (create_pin_filename pin (splitext_ext old) = old →
      (reconcile_pin existing dir pin).1 = dir) ∧
    (create_pin_filename pin (splitext_ext old) ≠ old →
      (reconcile_pin existing dir pin).1 =
        dir.replace old (create_pin_filename pin (splitext_ext old))) := by
  refine ⟨?_, ?_, ?_, ?_⟩
  · intro hq
    have hnone := mem_reconcile_new existing ps dir pin hq
    rw [h] at hnone
    cases hnone
  · rw [reconcile_pin_present existing dir pin old h]
  · intro he
    rw [reconcile_pin_present existing dir pin old h, if_pos he]
  · intro he
    rw [reconcile_pin_present existing dir pin old h, if_neg he]

/-- C6 witness: a pin already on disk under its computed name is not new
and causes no rename. -/
theorem c6_witness :
    dictLookup [([49], [49])] ([49] : List Nat) = some [49] ∧
    ({ id := [49], note := [] } : Pin) ∈ [({ id := [49], note := [] } : Pin)] ∧
    ({ id := [49], note := [] } : Pin) ∉
      (reconcile_page [([49], [49])] [[49]] [{ id := [49], note := [] }]).2 ∧
    (reconcile_pin [([49], [49])] [[49]] { id := [49], note := [] }).2 = false :=
  ⟨by decide, by decide,
   (c6_existing_pin_no_redownload [([49], [49])] [[49]] { id := [49], note := [] } [49]
     [{ id := [49], note := [] }] (by decide) (by decide)).1,
   (c6_existing_pin_no_redownload [([49], [49])] [[49]] { id := [49], note := [] } [49]
     [{ id := [49], note := [] }] (by decide) (by decide)).2.1⟩

/-! ### Claim C7 -/

/-- C7 counterexample: the claim says a bare id that does NOT match the
canonical board id makes the directory derive from the canonical URL path;
in the code the reference is kept verbatim in that case, and the URL path
is used exactly when the reference EQUALS the canonical id. -/
theorem c7_counterexample :
    ([98] : List Nat) ≠ [49] ∧
    resolve_board_dirname [98] { id := [49], url_path := [117, 47, 98] } = [98] ∧
    resolve_board_dirname [98] { id := [49], url_path := [117, 47, 98] } ≠ [117, 47, 98] := by
  decide

/-- C7 amended: the local directory is derived from the canonical URL path
exactly when the supplied reference equals the canonical board id; when it
differs the raw reference the user supplied is used. -/
theorem c7_board_dir_resolution (out_dir : List Nat) (sep : Nat) (board : List Nat)
    (info : BoardInfo) :
    (board = info.id →
      board_local_path out_dir sep board info =
        out_dir ++ [sep] ++ info.url_path.map (fun c => if c = 47 then sep else c)) ∧
    (board ≠ info.id →
      board_local_path out_dir sep board info =
        out_dir ++ [sep] ++ board.map (fun c => if c = 47 then sep else c)) := by
  unfold board_local_path resolve_board_dirname
  constructor
  · intro h
    rw [if_pos h]
  · intro h
    rw [if_neg h]

/-- C7 witness: a reference that differs from the canonical id keeps the
raw reference as the directory name. -/
theorem c7_witness :
    ([98] : List Nat) ≠ [49] ∧
    board_local_path [111] 92 [98] { id := [49], url_path := [117] } =
      [111] ++ [92] ++ ([98] : List Nat).map (fun c => if c = 47 then 92 else c) :=
  ⟨by decide,
   (c7_board_dir_resolution [111] 92 [98] { id := [49], url_path := [117] }).2 (by decide)⟩

/-! ### Claim C3 -/

set_option maxRecDepth 10000 in
/-- C3 counterexample: the claim quantifies over every pin id, but a pin
with an empty note and a 256-character id yields the file name id ++ ext
with no length limiting at all, so the encoded length exceeds 255 bytes. -/
theorem c3_counterexample :
    ¬(utf8Len (create_pin_filename { id := List.replicate 256 97, note := [] } []) ≤ 255 ∧
      ∃ t, create_pin_filename { id := List.replicate 256 97, note := [] } [] =
        t ++ (List.replicate 256 97 ++ [])) := by
  intro h
  exact absurd h.1 (by decide)

set_option maxRecDepth 10000 in
/-- Lowercasing runs after the byte truncation and can expand: a note of
fifty U+0130 characters with a 150-character ASCII id and extension .jpg
passes both truncations untouched at 100 bytes, is expanded to 150 bytes
by the lowering, and the resulting file name is 305 bytes, beyond the
255-byte path-component bound the code aims for.  This is why the byte
bound below requires an ASCII note. -/
theorem create_pin_filename_lower_expansion :
    utf8Len (create_pin_filename
      { id := List.replicate 150 97, note := List.replicate 50 304 }
      [46, 106, 112, 103]) = 305 := by
  decide

/-- C3 amended: for every pin and extension whose id, extension and note
are ASCII (the code states the ASCII assumption for id and extension; an
ASCII note keeps the lowering step byte-preserving, which a general note
does not) with len(id) + len(ext) at most 254, the file name encodes to at
most 255 bytes; the name always ends with the id immediately followed by
the extension. -/
theorem c3_filename_bounds (pin : Pin) (ext : List Nat)
    (hid : ∀ c ∈ pin.id, c < 128) (hext : ∀ c ∈ ext, c < 128)
    (hnote : ∀ c ∈ pin.note, c < 128)
    (hlen : pin.id.length + ext.length ≤ 254) :
    utf8Len (create_pin_filename pin ext) ≤ 255 ∧
    ∃ t, create_pin_filename pin ext = t ++ (pin.id ++ ext) := by
  have hs : ∀ c ∈ limit_string (lstripDot pin.note) (noteLimit : Int),
      c < 128 ∨ c = ellipsisChar := by
    intro c hc
    rcases mem_limit_string (lstripDot pin.note) (noteLimit : Int) c hc with h | h
    · exact Or.inl (hnote c ((List.dropWhile_sublist _).subset h))
    · exact Or.inr h
  constructor
  · simp only [create_pin_filename]
    split_ifs with h0 h4
    · rw [utf8Len_append, utf8Len_ascii pin.id hid, utf8Len_ascii ext hext]
      omega
    · rw [utf8Len_append, utf8Len_append, utf8Len_append,
        utf8Len_ascii pin.id hid, utf8Len_ascii ext hext]
      have hn := note_pipeline_le (limit_string (lstripDot pin.note) (noteLimit : Int))
        (254 - pin.id.length - ext.length) hs
      have h95 : utf8Len [95] = 1 := rfl
      omega
    · rw [utf8Len_append, utf8Len_append,
        utf8Len_ascii pin.id hid, utf8Len_ascii ext hext]
      have hn := note_pipeline_le (limit_string (lstripDot pin.note) (noteLimit : Int))
        (254 - pin.id.length - ext.length) hs
      omega
  · obtain ⟨w, hw, hsh⟩ := create_pin_filename_shape pin ext
    exact ⟨w, by rw [hw, List.append_assoc]⟩

set_option maxRecDepth 10000 in
/-- C3 witness: an ordinary pin with id 123, a short note and extension
.jpg stays within the 255-byte bound. -/
theorem c3_witness :
    (∀ c ∈ ([49, 50, 51] : List Nat), c < 128) ∧
    utf8Len (create_pin_filename
      { id := [49, 50, 51], note := [104, 105, 32, 116, 104, 101, 114, 101] }
      [46, 106, 112, 103]) ≤ 255 :=
  ⟨by decide,
   (c3_filename_bounds { id := [49, 50, 51], note := [104, 105, 32, 116, 104, 101, 114, 101] }
     [46, 106, 112, 103] (by decide) (by decide) (by decide) (by decide)).1⟩

/-! ### Claim C4 -/

set_option maxRecDepth 10000 in
/-- C4 counterexample: the claim quantifies over every extension, but with
the empty extension and a note holding a period, the scanner cuts the stem
at the period inside the note and decodes the wrong id: pin id 1 with note
a.b encodes to a.b_1, whose stem is a, decoded as id a. -/
theorem c4_counterexample :
    scan_pin_id (create_pin_filename { id := [49], note := [97, 46, 98] } []) = [97] ∧
    ([97] : List Nat) ≠ [49] ∧ pyIsAlnum [49] = true := by
  decide

/-- C4 amended: for every pin whose id is alphanumeric and every extension
consisting of a leading period followed by period-free characters (the
shape every extension produced by os.path.splitext has), the scanner
decoding of the encoded file name recovers exactly the pin id, and the
recovered id passes the alphanumeric acceptance test. -/
theorem c4_scan_roundtrip (pin : Pin) (e : List Nat)
    (hid : pyIsAlnum pin.id = true) (he : (46 : Nat) ∉ e) :
    scan_pin_id (create_pin_filename pin (46 :: e)) = pin.id ∧
    pyIsAlnum (scan_pin_id (create_pin_filename pin (46 :: e))) = true := by
  obtain ⟨w, hw, hshape⟩ := create_pin_filename_shape pin (46 :: e)
  have h1 : scan_pin_id (create_pin_filename pin (46 :: e)) = pin.id := by
    rw [hw]
    exact scan_pin_id_of_shape w pin.id e hid he hshape
  exact ⟨h1, by rw [h1]; exact hid⟩

set_option maxRecDepth 10000 in
/-- C4 witness: pin id 12 with note hi and extension .jpg round-trips. -/
theorem c4_witness :
    pyIsAlnum [49, 50] = true ∧
    scan_pin_id (create_pin_filename { id := [49, 50], note := [104, 105] }
      (46 :: [106, 112, 103])) = [49, 50] :=
  ⟨by decide,
   (c4_scan_roundtrip { id := [49, 50], note := [104, 105] } [106, 112, 103]
     (by decide) (by decide)).1⟩

/-! ### Claim C5 -/

/-- C5 counterexample: the claim says limit_string_bytes returns the empty
string whenever the budget is smaller than the byte length of the ellipsis,
but a string that already fits such a small budget is returned unchanged:
ab under budget 2. -/
theorem c5_counterexample :
    limit_string_bytes [97, 98] 2 = [97, 98] ∧ ([97, 98] : List Nat) ≠ [] ∧
    2 < ellipsisByteLen := by
  decide

/-- C5 amended: for every valid string and byte budget, limit_string_bytes
never splits a multi-byte character (the output is a character-prefix of
the input, possibly followed by the single ellipsis character); a string
that fits is returned unchanged; when the string does not fit, the result
is empty exactly when the budget is below the byte length of the ellipsis
and otherwise ends with the ellipsis; and the output always fits the
budget. -/
theorem c5_limit_string_bytes_spec (s : List Nat) (B : Nat)
    (hval : ∀ c ∈ s, ValidChar c) :
    (∃ n, limit_string_bytes s B = s.take n ∨
      limit_string_bytes s B = s.take n ++ [ellipsisChar]) ∧
    (utf8Len s ≤ B → limit_string_bytes s B = s) ∧
    (B < utf8Len s → B < ellipsisByteLen → limit_string_bytes s B = []) ∧
    (B < utf8Len s → ellipsisByteLen ≤ B →
      ∃ t, limit_string_bytes s B = t ++ [ellipsisChar]) ∧
    utf8Len (limit_string_bytes s B) ≤ B :=
  ⟨limit_string_bytes_take s B hval,
   limit_string_bytes_of_fits s B,
   limit_string_bytes_of_small s B,
   limit_string_bytes_of_trunc s B,
   utf8Len_limit_string_bytes_le s B⟩

/-- C5 witness: abc under budget 2 does not fit and collapses to empty. -/
theorem c5_witness :
    (∀ c ∈ ([97, 98, 99] : List Nat), ValidChar c) ∧
    limit_string_bytes [97, 98, 99] 2 = [] :=
  ⟨by decide,
   (c5_limit_string_bytes_spec [97, 98, 99] 2 (by decide)).2.2.1 (by decide) (by decide)⟩

/-! ### Claim C8 -/

set_option maxRecDepth 10000 in
/-- C8 counterexample: the claim quantifies over every pin, but a pin with
an 80-character id cannot fit the 79-column budget: with 5 total pins and a
2-character note the line is 87 columns. -/
theorem c8_counterexample :
    ¬((progress_line 5 { id := List.replicate 80 97, note := [97, 98] } 1).length ≤ 79) := by
  decide

/-- C8 amended: the progress line fits the 79-column budget, with the
remaining width after the counter split between the size-limited note and
the pin id, whenever the rendered pin number fits the counter field and the
pin id is shorter than the remaining width; the line is then exactly 79
columns. -/
theorem c8_progress_line_width (num_pins pin_num : Nat) (pin : Pin)
    (hnum : (pyStrNat pin_num).length ≤ num_width num_pins)
    (hid : pin.id.length < free_width num_pins) :
    (progress_line num_pins pin pin_num).length = 79 := by
  have hnote := limit_string_length_le pin.note (free_width num_pins - pin.id.length)
    (by omega)
  simp only [progress_line, padLeft, padRight]
  simp only [List.length_append, List.length_replicate, List.length_cons, List.length_nil]
  unfold free_width num_width at hnote hid ⊢
  unfold num_width at hnum
  omega

set_option maxRecDepth 10000 in
/-- C8 witness: ten total pins, pin number 3, id of three characters and a
short note give a line of exactly 79 columns. -/
theorem c8_witness :
    (pyStrNat 3).length ≤ num_width 10 ∧
    ([105, 100, 49] : List Nat).length < free_width 10 ∧
    (progress_line 10 { id := [105, 100, 49], note := [104, 105] } 3).length = 79 :=
  ⟨by decide, by decide,
   c8_progress_line_width 10 3 { id := [105, 100, 49], note := [104, 105] }
     (by decide) (by decide)⟩

/-! ### Claim C9 -/

/-- C9: for every string and length limit of at least one, limit_string
returns at most that many characters; it returns the string unchanged
exactly when it fits, and otherwise the first limit minus one characters
followed by the one-character ellipsis (in particular a changed string). -/
theorem c9_limit_string_spec (s : List Nat) (n : Nat) (h1 : 1 ≤ n) :
    (limit_string s (n : Int)).length ≤ n ∧
    (s.length ≤ n → limit_string s (n : Int) = s) ∧
    (n < s.length →
      limit_string s (n : Int) = s.take (n - 1) ++ [ellipsisChar] ∧
      limit_string s (n : Int) ≠ s) := by
  refine ⟨limit_string_length_le s n h1,
    fun hle => limit_string_of_le s (n : Int) (by exact_mod_cast hle),
    fun hgt => ⟨limit_string_of_gt s n h1 hgt, ?_⟩⟩
  intro heq
  rw [limit_string_of_gt s n h1 hgt] at heq
  have hlen := congrArg List.length heq
  simp only [List.length_append, List.length_take, List.length_cons, List.length_nil] at hlen
  omega

/-- C9 witness: abc under limit 2 becomes a followed by the ellipsis. -/
theorem c9_witness :
    (1 : Nat) ≤ 2 ∧ (limit_string [97, 98, 99] ((2 : Nat) : Int)).length ≤ 2 :=
  ⟨by decide, (c9_limit_string_spec [97, 98, 99] 2 (by decide)).1⟩

end Pindl

